import Mathlib

/-!
# easynumeric: fixed 15-point Kronrod quadrature

A shallow embedding of `src/easynumeric.hpp` and a verification of its
specification.

* `double` is read as an arbitrary linearly ordered field `K` (exact
  arithmetic); the statements about `π`, the real exponential and the real
  power function are made over `ℝ`.
* The integrand `std::function<double(double)>` is a function `K → m K` in a
  monad `m`.  With `m = Id` it is a pure function and the embedding computes
  the returned value; with `m = StateM (List K)` and the integrand `logged f`
  the same code records every point at which the integrand is called.
* The nullable output pointer `double* error_estimate` is an `Option K`:
  `none` is `nullptr`, `some e` is a pointer to a slot currently holding `e`.
  Every function returns the returned `double` together with the final
  content of the slot.
* `pow` of `<cmath>` is not part of the repository; it is a parameter.
  `fabs` is the absolute value of the ordered field.
-/

namespace EasyNumeric

variable {K : Type} [LinearOrderedField K] {m : Type → Type} [Monad m]

/-! ## The program -/

/-- `integrate_interval` (easynumeric.hpp, lines 49-83).  The two calls of a
line `f(-x * bma + bpa) + f(x * bma + bpa)` are sequenced left to right. -/
def integrate_interval (pow : K → K → K) (f : K → m K) (a b : K)
    (error_estimate : Option K) : m (K × Option K) := do
  let bma : K := (b - a) / 2
  let bpa : K := (a + b) / 2
  let result : K := ((← f (-0.991455371120813 * bma + bpa)) + (← f (0.991455371120813 * bma + bpa))) * 0.022935322010529
  let result : K := result + ((← f (-0.949107912342759 * bma + bpa)) + (← f (0.949107912342759 * bma + bpa))) * 0.063092092629979
  let result : K := result + ((← f (-0.864864423359769 * bma + bpa)) + (← f (0.864864423359769 * bma + bpa))) * 0.104790010322250
  let result : K := result + ((← f (-0.741531185599394 * bma + bpa)) + (← f (0.741531185599394 * bma + bpa))) * 0.140653259715525
  let result : K := result + ((← f (-0.586087235467691 * bma + bpa)) + (← f (0.586087235467691 * bma + bpa))) * 0.169004726639267
  let result : K := result + ((← f (-0.405845151377397 * bma + bpa)) + (← f (0.405845151377397 * bma + bpa))) * 0.190350578064785
  let result : K := result + ((← f (-0.207784955007898 * bma + bpa)) + (← f (0.207784955007898 * bma + bpa))) * 0.204432940075298
  let result : K := result + (← f (0 + bpa)) * 0.209482141084728
  let result : K := result * bma
  match error_estimate with
  | none => pure (result, none)
  | some _ => do
    let e : K := ((← f (-0.949107912342759 * bma + bpa)) + (← f (0.949107912342759 * bma + bpa))) * 0.129484966168870
    let e : K := e + ((← f (-0.741531185599394 * bma + bpa)) + (← f (0.741531185599394 * bma + bpa))) * 0.279705391489277
    let e : K := e + ((← f (-0.405845151377397 * bma + bpa)) + (← f (0.405845151377397 * bma + bpa))) * 0.381830050505119
    let e : K := e + (← f (0 + bpa)) * 0.417959183673469
    let e : K := e * bma
    pure (result, some (pow (200 * |e - result|) 1.5))

/-- The lambda `f_transform = [f, a](double t) { return f(a + (1 - t) / t) / (t * t); }`
of `integrate_semi_inf` (lines 19-21). -/
def f_transform (f : K → m K) (a : K) : K → m K :=
  fun t => do
    let v ← f (a + (1 - t) / t)
    pure (v / (t * t))

/-- One pass through the body of the `for` loop of `integrate_semi_inf`
(lines 24-29).  The loop state is `(result, *error_estimate, tmp_error)`. -/
def loop_body (pow : K → K → K) (f : K → m K) (a step_size : K)
    (st : K × Option K × K) (i : ℕ) : m (K × Option K × K) :=
  match st.2.1 with
  | none => do
    let r ← integrate_interval pow (f_transform f a) ((i : K) * step_size)
      (((i + 1 : ℕ) : K) * step_size) none
    pure (st.1 + r.1, none, st.2.2)
  | some e => do
    let r ← integrate_interval pow (f_transform f a) ((i : K) * step_size)
      (((i + 1 : ℕ) : K) * step_size) (some st.2.2)
    let tmp_error : K := r.2.getD st.2.2
    pure (st.1 + r.1, some (e + tmp_error), tmp_error)

/-- `integrate_semi_inf` (easynumeric.hpp, lines 11-33).  `tmp_error` is the
content of the uninitialised local of that name; the loop
`for (int i = 0; i < subdivisions; i++)` runs over `i = 0, ..., subdivisions - 1`
and not at all when `subdivisions <= 0`. -/
def integrate_semi_inf (pow : K → K → K) (f : K → m K) (a : K) (subdivisions : ℤ)
    (error_estimate : Option K) (tmp_error : K) : m (K × Option K) := do
  let result : K := 0
  let step_size : K := 1 / (subdivisions : K)
  let st ← (List.range subdivisions.toNat).foldlM (loop_body pow f a step_size)
    (result, error_estimate, tmp_error)
  pure (st.1, st.2.1)

/-- A call `integrate_semi_inf(f)` with the default arguments of the
declaration: `double a = 0, int subdivisions = 5, double* error_estimate = nullptr`. -/
def integrate_semi_inf_defaults (pow : K → K → K) (f : K → m K) (tmp_error : K) :
    m (K × Option K) :=
  integrate_semi_inf pow f 0 5 none tmp_error

/-- An instrumented pure integrand: a call at `x` appends `x` to the log and
returns `f x`. -/
def logged (f : K → K) : K → StateM (List K) K :=
  fun x => do
    modify (fun log => log ++ [x])
    pure (f x)

/-! ## Projections of the embedding and the evaluation log -/

/-- The value `integrate_interval` returns for a pure integrand. -/
def kronrod_estimate (f : K → K) (a b : K) : K :=
  (Id.run (integrate_interval (fun _ _ => 0) f a b none)).1

/-- The value `integrate_interval` writes to a supplied slot for a pure integrand. -/
def error_indicator (pow : K → K → K) (f : K → K) (a b : K) : K :=
  ((Id.run (integrate_interval pow f a b (some 0))).2).getD 0

/-- The arguments of the fifteen calls of lines 63-70, in order. -/
def kronrod_nodes (a b : K) : List K :=
  let bma : K := (b - a) / 2
  let bpa : K := (a + b) / 2
  [-0.991455371120813 * bma + bpa, 0.991455371120813 * bma + bpa,
   -0.949107912342759 * bma + bpa, 0.949107912342759 * bma + bpa,
   -0.864864423359769 * bma + bpa, 0.864864423359769 * bma + bpa,
   -0.741531185599394 * bma + bpa, 0.741531185599394 * bma + bpa,
   -0.586087235467691 * bma + bpa, 0.586087235467691 * bma + bpa,
   -0.405845151377397 * bma + bpa, 0.405845151377397 * bma + bpa,
   -0.207784955007898 * bma + bpa, 0.207784955007898 * bma + bpa,
   0 + bpa]

/-- The arguments of the seven calls of lines 75-78, in order. -/
def gauss_nodes (a b : K) : List K :=
  let bma : K := (b - a) / 2
  let bpa : K := (a + b) / 2
  [-0.949107912342759 * bma + bpa, 0.949107912342759 * bma + bpa,
   -0.741531185599394 * bma + bpa, 0.741531185599394 * bma + bpa,
   -0.405845151377397 * bma + bpa, 0.405845151377397 * bma + bpa,
   0 + bpa]

/-- The points at which one call of `integrate_interval` calls its integrand. -/
def interval_points (a b : K) (error_estimate : Option K) : List K :=
  match error_estimate with
  | none => kronrod_nodes a b
  | some _ => kronrod_nodes a b ++ gauss_nodes a b

/-- An integrand that returns `v x` and appends `p x` to the log. -/
def probe (v p : K → K) : K → StateM (List K) K :=
  fun x s => (v x, s ++ [p x])

/-- The lambda `f_transform` of a pure integrand, as a pure function. -/
def transformed (f : K → K) (a : K) : K → K :=
  fun t => Id.run (f_transform f a t)

/-- The embedded lower-order estimate as the specification words it: the
7-point rule with its own weights on the symmetric pairs around the midpoint
`m = (a + b) / 2` and at the midpoint, scaled by `h = (b - a) / 2`. -/
def coarse_estimate (f : K → K) (a b : K) : K :=
  (b - a) / 2 *
    (0.129484966168870 * (f ((a + b) / 2 - 0.949107912342759 * ((b - a) / 2))
        + f ((a + b) / 2 + 0.949107912342759 * ((b - a) / 2)))
      + 0.279705391489277 * (f ((a + b) / 2 - 0.741531185599394 * ((b - a) / 2))
        + f ((a + b) / 2 + 0.741531185599394 * ((b - a) / 2)))
      + 0.381830050505119 * (f ((a + b) / 2 - 0.405845151377397 * ((b - a) / 2))
        + f ((a + b) / 2 + 0.405845151377397 * ((b - a) / 2)))
      + 0.417959183673469 * f ((a + b) / 2))

/-- The value `integrate_semi_inf(f, 0, n)` for `f(x) = 1 / (1 + x^2)`, computed
over the rationals. -/
def arctan_estimate_rat (n : ℤ) : ℚ :=
  (Id.run (integrate_semi_inf (fun _ _ => (0 : ℚ)) (fun x : ℚ => 1 / (1 + x ^ 2)) 0 n none 0)).1

/-! ## Rational enclosures of the exponential -/

/-- Sum of the first `n` terms of the exponential series at `-y`. -/
def exp_neg_taylor (y : ℚ) : ℕ → ℚ
  | 0 => 0
  | n + 1 => exp_neg_taylor y n + (-y) ^ n / (n.factorial : ℚ)

/-- Bound on the remainder of the exponential series at `-y` after `n` terms,
valid for `0 ≤ y ≤ 1`. -/
def exp_neg_remainder (y : ℚ) (n : ℕ) : ℚ :=
  y ^ n * (((n + 1 : ℕ) : ℚ) / ((n.factorial : ℚ) * (n : ℚ)))

/-- A rational upper bound of `exp (-q)` for `q ≥ 0`. -/
def exp_neg_upper (q : ℚ) : ℚ :=
  let r : ℚ := min q 40
  let N : ℕ := (r.num / (r.den : ℤ)).toNat + 1
  let y : ℚ := r / (N : ℚ)
  if 0 ≤ y ∧ y ≤ 1 then (exp_neg_taylor y 14 + exp_neg_remainder y 14) ^ N else 1

/-- A rational lower bound of `exp (-q)`. -/
def exp_neg_lower (q : ℚ) : ℚ :=
  let N : ℕ := (q.num / (q.den : ℤ)).toNat + 1
  let y : ℚ := q / (N : ℚ)
  if q ≤ 40 ∧ 0 ≤ y ∧ y ≤ 1 ∧ 0 ≤ exp_neg_taylor y 14 - exp_neg_remainder y 14 then
    (exp_neg_taylor y 14 - exp_neg_remainder y 14) ^ N
  else 0

/-! ## Lemmas on the embedding -/

theorem f_transform_probe (v p : K → K) (a : K) :
    f_transform (probe v p) a
      = probe (transformed v a) (fun t => p (a + (1 - t) / t)) := rfl

theorem interval_id_none (pow : K → K → K) (f : K → K) (a b : K) :
    Id.run (integrate_interval pow f a b none) = (kronrod_estimate f a b, none) := rfl

theorem interval_id_some (pow : K → K → K) (f : K → K) (a b e : K) :
    Id.run (integrate_interval pow f a b (some e))
      = (kronrod_estimate f a b, some (error_indicator pow f a b)) := rfl

theorem interval_run (pow : K → K → K) (v p : K → K) (a b : K) (slot : Option K)
    (s : List K) :
    (integrate_interval pow (probe v p) a b slot).run s
      = (Id.run (integrate_interval pow v a b slot),
          s ++ (interval_points a b slot).map p) := by
  cases slot <;>
    simp [integrate_interval, probe, interval_points, kronrod_nodes, gauss_nodes, StateT.run,
      bind, StateT.bind, pure, StateT.pure, Id.run]

theorem loop_id_none (pow : K → K → K) (f : K → K) (a step : K) (l : List ℕ)
    (r0 tmp : K) :
    Id.run (l.foldlM (loop_body pow f a step) (r0, none, tmp))
      = (r0 + (l.map (fun i : ℕ => kronrod_estimate (transformed f a) ((i : K) * step)
            (((i + 1 : ℕ) : K) * step))).sum, none, tmp) := by
  induction l generalizing r0 with
  | nil => simp; rfl
  | cons i l ih =>
    have hstep : Id.run ((i :: l).foldlM (loop_body pow f a step) (r0, none, tmp))
        = Id.run (l.foldlM (loop_body pow f a step)
            (r0 + kronrod_estimate (transformed f a) ((i : K) * step)
              (((i + 1 : ℕ) : K) * step), none, tmp)) := rfl
    rw [hstep, ih]
    simp [add_assoc]

theorem loop_id_some (pow : K → K → K) (f : K → K) (a step : K) (l : List ℕ)
    (r0 e tmp : K) :
    ∃ tmp2 : K, Id.run (l.foldlM (loop_body pow f a step) (r0, some e, tmp))
      = (r0 + (l.map (fun i : ℕ => kronrod_estimate (transformed f a) ((i : K) * step)
            (((i + 1 : ℕ) : K) * step))).sum,
         some (e + (l.map (fun i : ℕ => error_indicator pow (transformed f a) ((i : K) * step)
            (((i + 1 : ℕ) : K) * step))).sum), tmp2) := by
  induction l generalizing r0 e tmp with
  | nil => exact ⟨tmp, by simp; rfl⟩
  | cons i l ih =>
    have hstep : Id.run ((i :: l).foldlM (loop_body pow f a step) (r0, some e, tmp))
        = Id.run (l.foldlM (loop_body pow f a step)
            (r0 + kronrod_estimate (transformed f a) ((i : K) * step)
              (((i + 1 : ℕ) : K) * step),
             some (e + error_indicator pow (transformed f a) ((i : K) * step)
              (((i + 1 : ℕ) : K) * step)),
             error_indicator pow (transformed f a) ((i : K) * step)
              (((i + 1 : ℕ) : K) * step))) := rfl
    obtain ⟨t2, h2⟩ := ih (r0 + kronrod_estimate (transformed f a) ((i : K) * step)
            (((i + 1 : ℕ) : K) * step)) (e + error_indicator pow (transformed f a) ((i : K) * step)
            (((i + 1 : ℕ) : K) * step)) (error_indicator pow (transformed f a) ((i : K) * step)
            (((i + 1 : ℕ) : K) * step))
    refine ⟨t2, ?_⟩
    rw [hstep, h2]
    simp [add_assoc]

theorem list_range_sum (g : ℕ → K) (n : ℕ) :
    ((List.range n).map g).sum = ∑ i in Finset.range n, g i := by
  induction n with
  | zero => simp
  | succ k ih => simp [List.range_succ, Finset.sum_range_succ, ih]

theorem semi_inf_id_none (pow : K → K → K) (f : K → K) (a : K) (n : ℤ) (tmp : K) :
    Id.run (integrate_semi_inf pow f a n none tmp)
      = ((((List.range n.toNat).map (fun i : ℕ => kronrod_estimate (transformed f a)
            ((i : K) * (1 / (n : K))) (((i + 1 : ℕ) : K) * (1 / (n : K))))).sum), none) := by
  have h := loop_id_none pow f a (1 / (n : K)) (List.range n.toNat) 0 tmp
  have h2 : Id.run (integrate_semi_inf pow f a n none tmp)
      = ((Id.run ((List.range n.toNat).foldlM (loop_body pow f a (1 / (n : K)))
            (0, none, tmp))).1,
         (Id.run ((List.range n.toNat).foldlM (loop_body pow f a (1 / (n : K)))
            (0, none, tmp))).2.1) := rfl
  rw [h2, h]
  simp

theorem semi_inf_id_some (pow : K → K → K) (f : K → K) (a : K) (n : ℤ) (e tmp : K) :
    Id.run (integrate_semi_inf pow f a n (some e) tmp)
      = ((((List.range n.toNat).map (fun i : ℕ => kronrod_estimate (transformed f a)
            ((i : K) * (1 / (n : K))) (((i + 1 : ℕ) : K) * (1 / (n : K))))).sum),
         some (e + ((List.range n.toNat).map (fun i : ℕ => error_indicator pow (transformed f a)
            ((i : K) * (1 / (n : K))) (((i + 1 : ℕ) : K) * (1 / (n : K))))).sum)) := by
  obtain ⟨t2, h⟩ := loop_id_some pow f a (1 / (n : K)) (List.range n.toNat) 0 e tmp
  have h2 : Id.run (integrate_semi_inf pow f a n (some e) tmp)
      = ((Id.run ((List.range n.toNat).foldlM (loop_body pow f a (1 / (n : K)))
            (0, some e, tmp))).1,
         (Id.run ((List.range n.toNat).foldlM (loop_body pow f a (1 / (n : K)))
            (0, some e, tmp))).2.1) := rfl
  rw [h2, h]
  simp

theorem loop_body_run (pow : K → K → K) (v p : K → K) (a step : K)
    (st : K × Option K × K) (i : ℕ) (s : List K) :
    (loop_body pow (probe v p) a step st i).run s
      = (Id.run (loop_body pow v a step st i),
          s ++ (interval_points ((i : K) * step) (((i + 1 : ℕ) : K) * step) st.2.1).map
            (fun t => p (a + (1 - t) / t))) := by
  obtain ⟨r, slot, tmp⟩ := st
  cases slot with
  | none =>
    simp only [loop_body, f_transform_probe, StateT.run_bind, interval_run]
    rfl
  | some e =>
    simp only [loop_body, f_transform_probe, StateT.run_bind, interval_run]
    rfl

theorem loop_body_slot (pow : K → K → K) (v : K → K) (a step : K)
    (st : K × Option K × K) (i : ℕ) (b c : K) :
    interval_points b c (Id.run (loop_body pow v a step st i)).2.1
      = interval_points b c st.2.1 := by
  obtain ⟨r, slot, tmp⟩ := st
  cases slot <;> rfl

theorem loop_run (pow : K → K → K) (v p : K → K) (a step : K) (l : List ℕ)
    (st : K × Option K × K) (s : List K) :
    (l.foldlM (loop_body pow (probe v p) a step) st).run s
      = (Id.run (l.foldlM (loop_body pow v a step) st),
          s ++ l.flatMap (fun i : ℕ =>
            (interval_points ((i : K) * step) (((i + 1 : ℕ) : K) * step) st.2.1).map
              (fun t => p (a + (1 - t) / t)))) := by
  induction l generalizing st s with
  | nil => simp; rfl
  | cons i l ih =>
    rw [List.foldlM_cons, StateT.run_bind, loop_body_run]
    simp only [bind, Id.run] at ih ⊢
    rw [ih]
    refine Prod.ext rfl ?_
    have hs : ∀ b c : K, interval_points b c (Id.run (loop_body pow v a step st i)).2.1
        = interval_points b c st.2.1 := fun b c => loop_body_slot pow v a step st i b c
    simp only [Id.run] at hs
    simp only [List.flatMap_cons, List.append_assoc, hs]

theorem semi_inf_run (pow : K → K → K) (v p : K → K) (a : K) (n : ℤ)
    (slot : Option K) (tmp : K) (s : List K) :
    (integrate_semi_inf pow (probe v p) a n slot tmp).run s
      = (Id.run (integrate_semi_inf pow v a n slot tmp),
          s ++ (List.range n.toNat).flatMap (fun i : ℕ =>
            (interval_points ((i : K) * (1 / (n : K))) (((i + 1 : ℕ) : K) * (1 / (n : K)))
              slot).map (fun t => p (a + (1 - t) / t)))) := by
  simp only [integrate_semi_inf, StateT.run_bind, loop_run]
  rfl

/-! ## Transfer of rational evaluations along the cast `ℚ → K` -/

theorem kronrod_estimate_cast (F : K → K) (f : ℚ → ℚ)
    (hF : ∀ q : ℚ, F (q : K) = ((f q : ℚ) : K)) (a b : ℚ) :
    kronrod_estimate F (a : K) (b : K) = ((kronrod_estimate f a b : ℚ) : K) := by
  simp only [kronrod_estimate, integrate_interval, Id.run, bind, pure]
  push_cast
  simp only [← hF]
  push_cast
  rfl

theorem transformed_cast (F : K → K) (f : ℚ → ℚ)
    (hF : ∀ q : ℚ, F (q : K) = ((f q : ℚ) : K)) (a t : ℚ) :
    transformed F (a : K) (t : K) = ((transformed f a t : ℚ) : K) := by
  have h := hF (a + (1 - t) / t)
  push_cast at h
  simp only [transformed, f_transform, Id.run, bind, pure]
  rw [h]
  push_cast
  rfl

theorem semi_inf_cast (pow : K → K → K) (powq : ℚ → ℚ → ℚ) (F : K → K) (f : ℚ → ℚ)
    (hF : ∀ q : ℚ, F (q : K) = ((f q : ℚ) : K)) (a : ℚ) (n : ℤ) (tmp : K) (tmpq : ℚ) :
    (Id.run (integrate_semi_inf pow F (a : K) n none tmp)).1
      = (((Id.run (integrate_semi_inf powq f a n none tmpq)).1 : ℚ) : K) := by
  rw [semi_inf_id_none, semi_inf_id_none]
  simp only [Rat.cast_list_sum, List.map_map]
  congr 1
  apply List.map_congr_left
  intro i _
  have h := kronrod_estimate_cast (transformed F (a : K)) (transformed f a)
    (transformed_cast F f hF a) ((i : ℚ) * (1 / (n : ℚ))) (((i + 1 : ℕ) : ℚ) * (1 / (n : ℚ)))
  push_cast at h
  simp only [Function.comp]
  push_cast
  exact h

/-! ## The claims -/

/-- C1 (code defect).  The claim: after `integrate_semi_inf(f, a, n, &slot)` the slot
holds the sum of the subinterval error indicators, whatever it held before.
The code adds to the slot without initialising it: for `f = 0`, `a = 0`,
`subdivisions = 1` and a slot holding `1`, the only subinterval's indicator
is `0`, yet the slot holds `1` afterwards (and `2` had it held `2`). -/
theorem semi_inf_slot_keeps_previous_content :
    (Id.run (integrate_interval (fun x y : ℝ => x ^ y) (transformed (fun _ : ℝ => (0 : ℝ)) 0)
        (((0 : ℕ) : ℝ) * (1 / ((1 : ℤ) : ℝ))) (((0 + 1 : ℕ) : ℝ) * (1 / ((1 : ℤ) : ℝ)))
        (some 0))).2 = some 0
    ∧ (Id.run (integrate_semi_inf (fun x y : ℝ => x ^ y) (fun _ : ℝ => (0 : ℝ)) 0 1
        (some 1) 0)).2 = some 1
    ∧ (Id.run (integrate_semi_inf (fun x y : ℝ => x ^ y) (fun _ : ℝ => (0 : ℝ)) 0 1
        (some 2) 0)).2 = some 2 := by
  have h0 : error_indicator (fun x y : ℝ => x ^ y) (transformed (fun _ : ℝ => (0 : ℝ)) 0)
      (((0 : ℕ) : ℝ) * (1 / ((1 : ℤ) : ℝ))) (((0 + 1 : ℕ) : ℝ) * (1 / ((1 : ℤ) : ℝ))) = 0 := by
    simp [error_indicator, integrate_interval, transformed, f_transform, Id.run, bind, pure]
    exact Real.zero_rpow (by norm_num)
  have h1 : (1 : ℤ).toNat = 1 := rfl
  have h2 : List.range 1 = [0] := rfl
  refine ⟨?_, ?_, ?_⟩
  · rw [interval_id_some, h0]
  · rw [semi_inf_id_some]
    simp only [h1, h2, List.map, List.sum_cons, List.sum_nil, h0]
    norm_num
  · rw [semi_inf_id_some]
    simp only [h1, h2, List.map, List.sum_cons, List.sum_nil, h0]
    norm_num

/-- C2.  For every integrand `f`, lower bound `a` and subdivision count `n`
(in particular `n >= 1`), the value `integrate_semi_inf(f, a, n)` returns is the
sum over `i = 0 .. n - 1` of `integrate_interval(g, i/n, (i+1)/n)` with
`g(t) = f(a + (1 - t)/t) / t^2`; with the defaults it is this sum for `a = 0`
and `n = 5`. -/
theorem semi_inf_is_sum_of_interval_rules (pow : K → K → K) (f : K → K) (a : K) (n : ℤ)
    (tmp : K) :
    (Id.run (integrate_semi_inf pow f a n none tmp)).1
        = ∑ i in Finset.range n.toNat,
            (Id.run (integrate_interval pow (fun t => f (a + (1 - t) / t) / t ^ 2)
              ((i : K) / (n : K)) (((i : K) + 1) / (n : K)) none)).1
    ∧ (Id.run (integrate_semi_inf_defaults pow f tmp)).1
        = ∑ i in Finset.range 5,
            (Id.run (integrate_interval pow (fun t => f (0 + (1 - t) / t) / t ^ 2)
              ((i : K) / 5) (((i : K) + 1) / 5) none)).1 := by
  have key : ∀ (a : K) (n : ℤ), (Id.run (integrate_semi_inf pow f a n none tmp)).1
        = ∑ i in Finset.range n.toNat,
            (Id.run (integrate_interval pow (fun t => f (a + (1 - t) / t) / t ^ 2)
              ((i : K) / (n : K)) (((i : K) + 1) / (n : K)) none)).1 := by
    intro a n
    rw [semi_inf_id_none]
    refine (list_range_sum _ _).trans ?_
    refine Finset.sum_congr rfl (fun i _ => ?_)
    rw [interval_id_none]
    have hg : transformed f a = fun t => f (a + (1 - t) / t) / t ^ 2 := by
      funext t
      simp only [transformed, f_transform, Id.run, bind, pure, pow_two]
    have e1 : (i : K) * (1 / (n : K)) = (i : K) / (n : K) := by ring
    have e2 : ((i + 1 : ℕ) : K) * (1 / (n : K)) = ((i : K) + 1) / (n : K) := by
      push_cast
      ring
    rw [hg, e1, e2]
  refine ⟨key a n, ?_⟩
  have h5 := key 0 5
  have h5t : (5 : ℤ).toNat = 5 := rfl
  rw [h5t, Int.cast_ofNat] at h5
  exact h5

theorem node_interior (a b c : K) (hab : a < b) (h1 : -1 < c) (h2 : c < 1) :
    a < c * ((b - a) / 2) + (a + b) / 2 ∧ c * ((b - a) / 2) + (a + b) / 2 < b := by
  have hd : 0 < b - a := sub_pos.mpr hab
  constructor <;> nlinarith

theorem interval_points_interior (a b : K) (slot : Option K) (hab : a < b) :
    ∀ t ∈ interval_points a b slot, a < t ∧ t < b := by
  cases slot <;>
    (simp only [interval_points, kronrod_nodes, gauss_nodes, List.forall_mem_append,
      List.forall_mem_cons, List.not_mem_nil, false_implies, implies_true, and_true]
     repeat' first
       | exact node_interior a b _ hab (by norm_num) (by norm_num)
       | constructor
     all_goals linarith)

theorem interval_log (pow : K → K → K) (f : K → K) (a b : K) (slot : Option K) :
    ((integrate_interval pow (logged f) a b slot).run []).2 = interval_points a b slot := by
  rw [show logged f = probe f id from rfl, interval_run]
  simp

theorem semi_inf_log (pow : K → K → K) (f : K → K) (a : K) (n : ℤ) (slot : Option K)
    (tmp : K) :
    ((integrate_semi_inf pow (logged f) a n slot tmp).run []).2
      = (List.range n.toNat).flatMap (fun i : ℕ =>
          (interval_points ((i : K) * (1 / (n : K))) (((i + 1 : ℕ) : K) * (1 / (n : K)))
            slot).map (fun t => a + (1 - t) / t)) := by
  rw [show logged f = probe f id from rfl, semi_inf_run]
  simp

theorem interval_points_map_slot (a b tmp : K) (slot : Option K) :
    interval_points a b (slot.map fun _ => tmp) = interval_points a b slot := by
  cases slot <;> rfl

theorem subinterval_bounds (n : ℤ) (i : ℕ) (hi : i < n.toNat) :
    (0 : K) ≤ (i : K) * (1 / (n : K))
      ∧ (i : K) * (1 / (n : K)) < ((i + 1 : ℕ) : K) * (1 / (n : K))
      ∧ ((i + 1 : ℕ) : K) * (1 / (n : K)) ≤ 1 := by
  have hn : (0 : ℤ) < n := by omega
  have hnK : (0 : K) < (n : K) := by exact_mod_cast hn
  have hin : ((i + 1 : ℕ) : K) ≤ (n : K) := by
    have : ((i + 1 : ℕ) : ℤ) ≤ n := by omega
    exact_mod_cast this
  have hs : (0 : K) < 1 / (n : K) := one_div_pos.mpr hnK
  refine ⟨mul_nonneg (Nat.cast_nonneg i) hs.le, ?_, ?_⟩
  · apply mul_lt_mul_of_pos_right _ hs
    push_cast
    linarith
  · rw [mul_one_div, div_le_one hnK]
    exact hin

/-- C3.  Every point `t` at which `integrate_semi_inf` evaluates the transformed
integrand, i.e. every point at which `integrate_interval` calls its integrand
on a subinterval `[i * step_size, (i + 1) * step_size]`, `0 <= i < n`,
satisfies `0 < t < 1`, so `t` and `t * t` are not zero; the calls of `f`
itself are at the points `x = a + (1 - t) / t` for these `t`, in order, and
each of them satisfies `x > a`.  This holds with and without an error slot. -/
theorem semi_inf_evaluation_points_interior (pow : K → K → K) (f : K → K) (a : K)
    (n : ℤ) (slot : Option K) (tmp : K) :
    ((integrate_semi_inf pow (logged f) a n slot tmp).run []).2
        = (List.range n.toNat).flatMap (fun i : ℕ =>
            (((integrate_interval pow (logged (transformed f a)) ((i : K) * (1 / (n : K)))
              (((i + 1 : ℕ) : K) * (1 / (n : K))) (slot.map fun _ => tmp)).run []).2).map
              (fun t => a + (1 - t) / t))
    ∧ (∀ i : ℕ, i < n.toNat →
        ∀ t ∈ ((integrate_interval pow (logged (transformed f a)) ((i : K) * (1 / (n : K)))
              (((i + 1 : ℕ) : K) * (1 / (n : K))) (slot.map fun _ => tmp)).run []).2,
          0 < t ∧ t < 1 ∧ t ≠ 0 ∧ t * t ≠ 0)
    ∧ (∀ x ∈ ((integrate_semi_inf pow (logged f) a n slot tmp).run []).2, a < x) := by
  have hint : ∀ i : ℕ, i < n.toNat →
      ∀ t ∈ interval_points ((i : K) * (1 / (n : K))) (((i + 1 : ℕ) : K) * (1 / (n : K))) slot,
        0 < t ∧ t < 1 := by
    intro i hi t ht
    obtain ⟨h0, hlt, h1⟩ := subinterval_bounds (K := K) n i hi
    obtain ⟨h2, h3⟩ := interval_points_interior _ _ slot hlt t ht
    exact ⟨lt_of_le_of_lt h0 h2, lt_of_lt_of_le h3 h1⟩
  simp only [interval_log, semi_inf_log, interval_points_map_slot]
  refine ⟨trivial, ?_, ?_⟩
  · intro i hi t ht
    obtain ⟨h0, h1⟩ := hint i hi t ht
    exact ⟨h0, h1, h0.ne', (mul_pos h0 h0).ne'⟩
  · intro x hx
    simp only [List.mem_flatMap, List.mem_range, List.mem_map] at hx
    obtain ⟨i, hi, t, ht, rfl⟩ := hx
    obtain ⟨h0, h1⟩ := hint i hi t ht
    have : 0 < (1 - t) / t := div_pos (by linarith) h0
    linarith

/-- C4.  When an error slot is supplied, `integrate_interval` overwrites it with
`(200 * |C - K|)^1.5`, where `K` is the returned primary estimate and `C` is
the 7-point embedded rule scaled by `h = (b - a)/2` (`coarse_estimate`); the
value written is the same for every previous content of the slot. -/
theorem interval_error_slot_value (pow : K → K → K) (f : K → K) (a b e0 : K) :
    (Id.run (integrate_interval pow f a b (some e0))).2
        = some (pow (200 * |coarse_estimate f a b
            - (Id.run (integrate_interval pow f a b (some e0))).1|) 1.5)
    ∧ ∀ e1 : K, (Id.run (integrate_interval pow f a b (some e1))).2
        = (Id.run (integrate_interval pow f a b (some e0))).2 := by
  refine ⟨?_, fun e1 => rfl⟩
  simp only [integrate_interval, coarse_estimate, Id.run, bind, pure]
  ring_nf

theorem unit_weight_defect (pow : K → K → K) (a b : K) :
    (Id.run (integrate_interval pow (fun _ => (1 : K)) a b none)).1 - (b - a)
      = -(3e-15 * (b - a)) := by
  simp only [integrate_interval, Id.run, bind, pure]
  ring_nf

/-- C5.  For the constant integrand `f(x) = 1` and every `a < b`, the value of
`integrate_interval(f, a, b)` differs from `b - a` by at most `1e-14 * (b - a)`
(the decimal weights sum to `2 - 6e-15`). -/
theorem constant_integrand_length (pow : K → K → K) (a b : K) (hab : a < b) :
    |(Id.run (integrate_interval pow (fun _ => (1 : K)) a b none)).1 - (b - a)|
      ≤ 1e-14 * (b - a) := by
  have hd : (0 : K) < b - a := sub_pos.mpr hab
  rw [unit_weight_defect, abs_neg, abs_of_nonneg (by nlinarith : (0 : K) ≤ 3e-15 * (b - a))]
  nlinarith

/-- Witness of C5 on `[0, 1]` over the rationals. -/
theorem constant_integrand_length_witness :
    (0 : ℚ) < 1 ∧
    |(Id.run (integrate_interval (fun _ _ => (0 : ℚ)) (fun _ => (1 : ℚ)) 0 1 none)).1 - (1 - 0)|
      ≤ 1e-14 * (1 - 0) :=
  ⟨by norm_num, constant_integrand_length (fun _ _ => (0 : ℚ)) 0 1 (by norm_num)⟩

theorem monomial_exactness_rat : ∀ k ∈ List.range 22,
    |kronrod_estimate (fun x : ℚ => x ^ k) 0 1 - 1 / ((k : ℚ) + 1)| < 1e-12 := by
  decide!

/-- C6.  For every integer `0 <= k <= 21`, `integrate_interval(x -> x^k, 0, 1)`
differs from `1 / (k + 1)` by less than `1e-12`, in exact arithmetic on the
code's decimal nodes and weights. -/
theorem monomial_exactness (pow : K → K → K) (k : ℕ) (hk : k ≤ 21) :
    |(Id.run (integrate_interval pow (fun x : K => x ^ k) 0 1 none)).1 - 1 / ((k : K) + 1)|
      < 1e-12 := by
  have hq := monomial_exactness_rat k (List.mem_range.mpr (by omega))
  have hc := kronrod_estimate_cast (fun x : K => x ^ k) (fun x : ℚ => x ^ k)
    (fun q => by push_cast; rfl) 0 1
  rw [Rat.cast_zero, Rat.cast_one] at hc
  have hK : ((|kronrod_estimate (fun x : ℚ => x ^ k) 0 1 - 1 / ((k : ℚ) + 1)| : ℚ) : K)
      < ((1e-12 : ℚ) : K) := Rat.cast_lt.mpr hq
  rw [Rat.cast_abs] at hK
  push_cast at hK
  rw [← hc] at hK
  rw [interval_id_none]
  exact hK

/-- Witness of C6 at the degree of the specification's example, `k = 4`:
the rule gives `1/5` up to `1e-12`. -/
theorem monomial_exactness_witness :
    4 ≤ 21 ∧
    |(Id.run (integrate_interval (fun _ _ => (0 : ℚ)) (fun x : ℚ => x ^ 4) 0 1 none)).1
        - 1 / (((4 : ℕ) : ℚ) + 1)| < 1e-12 :=
  ⟨by decide, monomial_exactness (fun _ _ => (0 : ℚ)) 4 (by decide)⟩

/-- C7 (as stated, refuted).  With an error slot supplied, one call of
`integrate_interval` evaluates the integrand 22 times, not 15: lines 75-78
call `f` again at the seven points of the embedded rule.  Here `f(x) = x` on
`[0, 1]` with a slot holding `0`. -/
theorem interval_with_slot_calls_22 :
    ((integrate_interval (fun _ _ => (0 : ℚ)) (logged (fun x : ℚ => x)) 0 1
        (some 0)).run []).2.length = 22
    ∧ ((integrate_interval (fun _ _ => (0 : ℚ)) (logged (fun x : ℚ => x)) 0 1
        (some 0)).run []).2.length ≠ 15 := by
  constructor
  · rfl
  · decide

/-- C7 (amended).  A call of `integrate_interval` without an error slot
evaluates the integrand exactly 15 times, at the 7 symmetric pairs and the
midpoint; with an error slot it evaluates it exactly 22 times, those 15
points followed by the 7 points of the embedded rule.  Consequently
`integrate_semi_inf` with `n >= 1` subdivisions evaluates `f` exactly `15 * n`
times without an error slot and `22 * n` times with one. -/
theorem evaluation_counts (pow : K → K → K) (f : K → K) (a b e0 tmp : K) (n : ℤ)
    (hn : 1 ≤ n) :
    ((integrate_interval pow (logged f) a b none).run []).2 = kronrod_nodes a b
    ∧ ((integrate_interval pow (logged f) a b none).run []).2.length = 15
    ∧ ((integrate_interval pow (logged f) a b (some e0)).run []).2
        = kronrod_nodes a b ++ gauss_nodes a b
    ∧ ((integrate_interval pow (logged f) a b (some e0)).run []).2.length = 22
    ∧ ((((integrate_semi_inf pow (logged f) a n none tmp).run []).2.length : ℕ) : ℤ) = 15 * n
    ∧ ((((integrate_semi_inf pow (logged f) a n (some e0) tmp).run []).2.length : ℕ) : ℤ)
        = 22 * n := by
  have hlen : ∀ (c : ℕ) (g : ℕ → List K), (∀ i, (g i).length = c) →
      ∀ l : List ℕ, (l.flatMap g).length = c * l.length := by
    intro c g hg l
    induction l with
    | nil => simp
    | cons i l ih => simp [List.flatMap_cons, hg, ih, Nat.mul_succ, Nat.add_comm]
  have hn2 : ((n.toNat : ℕ) : ℤ) = n := Int.toNat_of_nonneg (by omega)
  refine ⟨interval_log _ _ _ _ _, ?_, interval_log _ _ _ _ _, ?_, ?_, ?_⟩
  · rw [interval_log]; rfl
  · rw [interval_log]; rfl
  · rw [semi_inf_log, hlen 15 _ (fun i => by rw [List.length_map]; rfl), List.length_range]
    push_cast
    rw [hn2]
  · rw [semi_inf_log, hlen 22 _ (fun i => by rw [List.length_map]; rfl), List.length_range]
    push_cast
    rw [hn2]

/-- Witness of C7 (amended) over the rationals: `f(x) = x`, `[0, 1]`, `n = 2`. -/
theorem evaluation_counts_witness :
    (1 : ℤ) ≤ 2
    ∧ ((integrate_interval (fun _ _ => (0 : ℚ)) (logged (fun x : ℚ => x)) 0 1 none).run []).2
        = kronrod_nodes 0 1
    ∧ ((integrate_interval (fun _ _ => (0 : ℚ)) (logged (fun x : ℚ => x)) 0 1
        none).run []).2.length = 15
    ∧ ((integrate_interval (fun _ _ => (0 : ℚ)) (logged (fun x : ℚ => x)) 0 1
        (some 0)).run []).2 = kronrod_nodes 0 1 ++ gauss_nodes 0 1
    ∧ ((integrate_interval (fun _ _ => (0 : ℚ)) (logged (fun x : ℚ => x)) 0 1
        (some 0)).run []).2.length = 22
    ∧ ((((integrate_semi_inf (fun _ _ => (0 : ℚ)) (logged (fun x : ℚ => x)) 0 2
        none 0).run []).2.length : ℕ) : ℤ) = 15 * 2
    ∧ ((((integrate_semi_inf (fun _ _ => (0 : ℚ)) (logged (fun x : ℚ => x)) 0 2
        (some 0) 0).run []).2.length : ℕ) : ℤ) = 22 * 2 :=
  ⟨by decide, evaluation_counts (fun _ _ => (0 : ℚ)) (fun x : ℚ => x) 0 1 0 0 2 (by decide)⟩

/-- C8.  With `h = (b - a)/2` and `m = (a + b)/2`,
`integrate_interval(f, a, b) = h * integrate_interval(u -> f(m + u * h), -1, 1)`:
the rule on `[a, b]` is the canonical rule on `[-1, 1]` carried by the affine
map `u -> m + u * h` and scaled by `h`. -/
theorem interval_is_scaled_canonical_rule (pow : K → K → K) (f : K → K) (a b : K) :
    (Id.run (integrate_interval pow f a b none)).1
      = (b - a) / 2 * (Id.run (integrate_interval pow
          (fun u => f ((a + b) / 2 + u * ((b - a) / 2))) (-1) 1 none)).1 := by
  simp only [integrate_interval, Id.run, bind, pure]
  norm_num
  ring_nf

theorem arctan_estimate_rat_bounds :
    (1.5707963267948919 : ℚ) < arctan_estimate_rat 20
      ∧ arctan_estimate_rat 20 < arctan_estimate_rat 5
      ∧ arctan_estimate_rat 5 < arctan_estimate_rat 20 + 1e-20
      ∧ arctan_estimate_rat 5 < 1.570796326794892 := by
  decide!

theorem arctan_estimate_cast (pow : ℝ → ℝ → ℝ) (n : ℤ) (tmp : ℝ) :
    (Id.run (integrate_semi_inf pow (fun x : ℝ => 1 / (1 + x ^ 2)) 0 n none tmp)).1
      = ((arctan_estimate_rat n : ℚ) : ℝ) := by
  have h := semi_inf_cast pow (fun _ _ => (0 : ℚ)) (fun x : ℝ => 1 / (1 + x ^ 2))
    (fun x : ℚ => 1 / (1 + x ^ 2)) (fun q => by push_cast; rfl) 0 n tmp 0
  rw [Rat.cast_zero] at h
  exact h

theorem arctan_estimate_real_bounds (pow : ℝ → ℝ → ℝ) (tmp : ℝ) :
    (1.5707963267948919 : ℝ)
        < (Id.run (integrate_semi_inf pow (fun x : ℝ => 1 / (1 + x ^ 2)) 0 20 none tmp)).1
      ∧ (Id.run (integrate_semi_inf pow (fun x : ℝ => 1 / (1 + x ^ 2)) 0 20 none tmp)).1
        < (Id.run (integrate_semi_inf pow (fun x : ℝ => 1 / (1 + x ^ 2)) 0 5 none tmp)).1
      ∧ (Id.run (integrate_semi_inf pow (fun x : ℝ => 1 / (1 + x ^ 2)) 0 5 none tmp)).1
        < (Id.run (integrate_semi_inf pow (fun x : ℝ => 1 / (1 + x ^ 2)) 0 20 none tmp)).1
          + 1e-20
      ∧ (Id.run (integrate_semi_inf pow (fun x : ℝ => 1 / (1 + x ^ 2)) 0 5 none tmp)).1
        < 1.570796326794892 := by
  obtain ⟨h1, h2, h3, h4⟩ := arctan_estimate_rat_bounds
  rw [arctan_estimate_cast pow 20 tmp, arctan_estimate_cast pow 5 tmp]
  have h1r := (Rat.cast_lt (K := ℝ)).mpr h1
  have h2r := (Rat.cast_lt (K := ℝ)).mpr h2
  have h3r := (Rat.cast_lt (K := ℝ)).mpr h3
  have h4r := (Rat.cast_lt (K := ℝ)).mpr h4
  push_cast at h1r h2r h3r h4r
  exact ⟨h1r, h2r, h3r, h4r⟩

/-- C9.  For `f(x) = 1/(1 + x^2)` and `a = 0`, the value of `integrate_semi_inf`
is within `1e-6` of `pi/2` for `subdivisions = 5` and for `subdivisions = 20`;
the transformed integrand is the rational function `1/(t^2 + (1 - t)^2)` at
every `t` other than `0`. -/
theorem arctan_integrand_within_tolerance (pow : ℝ → ℝ → ℝ) (tmp : ℝ) :
    |(Id.run (integrate_semi_inf pow (fun x : ℝ => 1 / (1 + x ^ 2)) 0 5 none tmp)).1
        - Real.pi / 2| < 1e-6
    ∧ |(Id.run (integrate_semi_inf pow (fun x : ℝ => 1 / (1 + x ^ 2)) 0 20 none tmp)).1
        - Real.pi / 2| < 1e-6
    ∧ ∀ t : ℝ, t ≠ 0 →
        transformed (fun x : ℝ => 1 / (1 + x ^ 2)) 0 t = 1 / (t ^ 2 + (1 - t) ^ 2) := by
  obtain ⟨h1, h2, h3, h4⟩ := arctan_estimate_real_bounds pow tmp
  have hp1 := Real.pi_gt_d6
  have hp2 := Real.pi_lt_d6
  refine ⟨?_, ?_, ?_⟩
  · rw [abs_lt]
    constructor <;> norm_num at * <;> linarith
  · rw [abs_lt]
    constructor <;> norm_num at * <;> linarith
  · intro t ht
    simp only [transformed, f_transform, Id.run, bind, pure]
    field_simp
    ring

/-- Witness of C9 with the real power function, at `t = 1/2`. -/
theorem arctan_integrand_within_tolerance_witness :
    (1 / 2 : ℝ) ≠ 0 ∧
    transformed (fun x : ℝ => 1 / (1 + x ^ 2)) 0 (1 / 2)
      = 1 / ((1 / 2 : ℝ) ^ 2 + (1 - 1 / 2) ^ 2) :=
  ⟨by norm_num,
    (arctan_integrand_within_tolerance (fun x y : ℝ => x ^ y) 0).2.2 (1 / 2) (by norm_num)⟩

theorem kronrod_estimate_affine (f : K → K) (a b : K) :
    kronrod_estimate f a b
      = (b - a) / 2 * kronrod_estimate (fun u => f ((a + b) / 2 + u * ((b - a) / 2))) (-1) 1 := by
  simp only [kronrod_estimate, integrate_interval, Id.run, bind, pure]
  norm_num
  ring_nf

theorem kronrod_estimate_zero (a b : K) : kronrod_estimate (fun _ => (0 : K)) a b = 0 := by
  simp only [kronrod_estimate, integrate_interval, Id.run, bind, pure]
  ring

theorem kronrod_estimate_add (f g : K → K) (a b : K) :
    kronrod_estimate (fun x => f x + g x) a b
      = kronrod_estimate f a b + kronrod_estimate g a b := by
  simp only [kronrod_estimate, integrate_interval, Id.run, bind, pure]
  ring

theorem kronrod_estimate_smul (c : K) (f : K → K) (a b : K) :
    kronrod_estimate (fun x => c * f x) a b = c * kronrod_estimate f a b := by
  simp only [kronrod_estimate, integrate_interval, Id.run, bind, pure]
  ring

theorem kronrod_estimate_finset_sum (s : Finset ℕ) (F : ℕ → K → K) (a b : K) :
    kronrod_estimate (fun x => ∑ i in s, F i x) a b = ∑ i in s, kronrod_estimate (F i) a b := by
  induction s using Finset.induction_on with
  | empty => simpa using kronrod_estimate_zero a b
  | insert hi ih =>
    simp only [Finset.sum_insert hi]
    rw [kronrod_estimate_add, ih]

theorem kronrod_monomial_expansion (k : ℕ) (a b : K) :
    kronrod_estimate (fun x => x ^ k) a b
      = (b - a) / 2 * ∑ i in Finset.range (k + 1),
          ((a + b) / 2) ^ i * ((b - a) / 2) ^ (k - i) * (k.choose i : K)
            * kronrod_estimate (fun u => u ^ (k - i)) (-1) 1 := by
  rw [kronrod_estimate_affine]
  congr 1
  have hfun : (fun u : K => ((a + b) / 2 + u * ((b - a) / 2)) ^ k)
      = fun u => ∑ i in Finset.range (k + 1),
          (((a + b) / 2) ^ i * ((b - a) / 2) ^ (k - i) * (k.choose i : K)) * u ^ (k - i) := by
    funext u
    rw [add_pow]
    refine Finset.sum_congr rfl (fun i _ => ?_)
    rw [mul_pow]
    ring
  rw [hfun, kronrod_estimate_finset_sum]
  refine Finset.sum_congr rfl (fun i _ => ?_)
  rw [kronrod_estimate_smul]

theorem monomial_integral_expansion (k : ℕ) (m h : K) :
    h * ∑ i in Finset.range (k + 1),
        m ^ i * h ^ (k - i) * (k.choose i : K)
          * ((1 - (-1) ^ (k - i + 1)) / (((k - i : ℕ) : K) + 1))
      = ((m + h) ^ (k + 1) - (m - h) ^ (k + 1)) / ((k : K) + 1) := by
  have hk1 : ((k : K) + 1) ≠ 0 := by positivity
  rw [eq_div_iff hk1, sub_eq_add_neg m h, add_pow, add_pow, ← Finset.sum_sub_distrib,
    Finset.sum_range_succ _ (k + 1)]
  simp only [Nat.sub_self, pow_zero, sub_self, add_zero, mul_one]
  rw [Finset.mul_sum, Finset.sum_mul]
  refine Finset.sum_congr rfl (fun i hi => ?_)
  have hik : i ≤ k := Nat.lt_succ_iff.mp (Finset.mem_range.mp hi)
  have hj : k + 1 - i = (k - i) + 1 := by omega
  have hC : ((k + 1).choose i : K) * (((k - i : ℕ) : K) + 1) = ((k : K) + 1) * (k.choose i : K) := by
    have h1 := Nat.choose_mul_succ_eq k i
    rw [hj] at h1
    have h2 : ((k.choose i * (k + 1) : ℕ) : K) = (((k + 1).choose i * (k - i + 1) : ℕ) : K) := by
      rw [h1]
    push_cast at h2
    linear_combination -h2
  have hj1 : (((k - i : ℕ) : K) + 1) ≠ 0 := by positivity
  have hC2 : ((k + 1).choose i : K)
      = ((k : K) + 1) * (k.choose i : K) / (((k - i : ℕ) : K) + 1) := by
    rw [eq_div_iff hj1]
    exact hC
  rw [hj, neg_pow h, hC2]
  generalize (k - i) = j at hj1 ⊢
  generalize ((k.choose i : ℕ) : K) = c
  field_simp
  ring


theorem canonical_moments_rat : ∀ j ∈ List.range 22,
    |kronrod_estimate (fun u : ℚ => u ^ j) (-1) 1 - (1 - (-1) ^ (j + 1)) / ((j : ℚ) + 1)|
      ≤ 1e-14 := by
  decide!

theorem canonical_moments (j : ℕ) (hj : j ≤ 21) :
    |kronrod_estimate (fun u : K => u ^ j) (-1) 1 - (1 - (-1) ^ (j + 1)) / ((j : K) + 1)|
      ≤ 1e-14 := by
  have hq := canonical_moments_rat j (List.mem_range.mpr (by omega))
  have hc := kronrod_estimate_cast (fun u : K => u ^ j) (fun u : ℚ => u ^ j)
    (fun q => by push_cast; rfl) (-1) 1
  rw [Rat.cast_neg, Rat.cast_one] at hc
  have hK := (Rat.cast_le (K := K)).mpr hq
  rw [Rat.cast_abs] at hK
  push_cast at hK
  rw [← hc] at hK
  exact hK

theorem monomial_rule_defect (k : ℕ) (hk : k ≤ 21) (a b : K) (ha : 0 ≤ a) (hab : a ≤ b)
    (hb : b ≤ 1) :
    |kronrod_estimate (fun x => x ^ k) a b - (b ^ (k + 1) - a ^ (k + 1)) / ((k : K) + 1)|
      ≤ 1e-14 * ((b - a) / 2) := by
  have hh : (0 : K) ≤ (b - a) / 2 := by linarith
  have hm : (0 : K) ≤ (a + b) / 2 := by linarith
  have hI := monomial_integral_expansion k ((a + b) / 2) ((b - a) / 2)
  have e1 : (a + b) / 2 + (b - a) / 2 = b := by ring
  have e2 : (a + b) / 2 - (b - a) / 2 = a := by ring
  rw [e1, e2] at hI
  rw [kronrod_monomial_expansion, ← hI, ← mul_sub, ← Finset.sum_sub_distrib, abs_mul,
    abs_of_nonneg hh, mul_comm (1e-14 : K)]
  refine mul_le_mul_of_nonneg_left ?_ hh
  have hsum : ∑ i in Finset.range (k + 1),
      ((a + b) / 2) ^ i * ((b - a) / 2) ^ (k - i) * (k.choose i : K) * (1e-14 : K)
        = b ^ k * 1e-14 := by
    rw [← Finset.sum_mul, ← add_pow, e1]
  have hbk : b ^ k ≤ 1 := pow_le_one₀ (by linarith) hb
  calc |∑ i in Finset.range (k + 1),
          (((a + b) / 2) ^ i * ((b - a) / 2) ^ (k - i) * (k.choose i : K)
              * kronrod_estimate (fun u => u ^ (k - i)) (-1) 1
            - ((a + b) / 2) ^ i * ((b - a) / 2) ^ (k - i) * (k.choose i : K)
              * ((1 - (-1) ^ (k - i + 1)) / (((k - i : ℕ) : K) + 1)))|
      ≤ ∑ i in Finset.range (k + 1),
          |((a + b) / 2) ^ i * ((b - a) / 2) ^ (k - i) * (k.choose i : K)
              * kronrod_estimate (fun u => u ^ (k - i)) (-1) 1
            - ((a + b) / 2) ^ i * ((b - a) / 2) ^ (k - i) * (k.choose i : K)
              * ((1 - (-1) ^ (k - i + 1)) / (((k - i : ℕ) : K) + 1))| :=
        Finset.abs_sum_le_sum_abs _ _
    _ ≤ ∑ i in Finset.range (k + 1),
          ((a + b) / 2) ^ i * ((b - a) / 2) ^ (k - i) * (k.choose i : K) * (1e-14 : K) := by
        refine Finset.sum_le_sum (fun i _ => ?_)
        have hc0 : (0 : K) ≤ ((a + b) / 2) ^ i * ((b - a) / 2) ^ (k - i) * (k.choose i : K) := by
          positivity
        rw [← mul_sub, abs_mul, abs_of_nonneg hc0]
        exact mul_le_mul_of_nonneg_left (canonical_moments (k - i) (by omega)) hc0
    _ = b ^ k * 1e-14 := hsum
    _ ≤ 1e-14 := by
        have : (0 : K) ≤ 1e-14 := by norm_num
        nlinarith

theorem interval_splitting_defect (k : ℕ) (hk : k ≤ 21) (a c b : K) (ha : 0 ≤ a) (hac : a < c)
    (hcb : c < b) (hb : b ≤ 1) :
    |kronrod_estimate (fun x => x ^ k) a c + kronrod_estimate (fun x => x ^ k) c b
        - kronrod_estimate (fun x => x ^ k) a b| < 1e-9 := by
  have h1 := monomial_rule_defect k hk a c ha hac.le (by linarith)
  have h2 := monomial_rule_defect k hk c b (by linarith) hcb.le hb
  have h3 := monomial_rule_defect k hk a b ha (by linarith) hb
  have htel : (c ^ (k + 1) - a ^ (k + 1)) / ((k : K) + 1)
      + (b ^ (k + 1) - c ^ (k + 1)) / ((k : K) + 1)
      = (b ^ (k + 1) - a ^ (k + 1)) / ((k : K) + 1) := by ring
  generalize (c ^ (k + 1) - a ^ (k + 1)) / ((k : K) + 1) = p at h1 htel
  generalize (b ^ (k + 1) - c ^ (k + 1)) / ((k : K) + 1) = q at h2 htel
  generalize (b ^ (k + 1) - a ^ (k + 1)) / ((k : K) + 1) = r at h3 htel
  rw [abs_le] at h1 h2 h3
  obtain ⟨h1l, h1u⟩ := h1
  obtain ⟨h2l, h2u⟩ := h2
  obtain ⟨h3l, h3u⟩ := h3
  rw [abs_lt]
  constructor <;> norm_num at h1l h1u h2l h2u h3l h3u ⊢ <;> linarith

/-- C11.  Additivity of interval splitting on monomials: for `f(x) = x^k` with
`0 <= k <= 21` and `0 <= a < c < b <= 1`,
`|integrate_interval(f, a, c) + integrate_interval(f, c, b) - integrate_interval(f, a, b)|`
is below `1e-9`. -/
theorem interval_splitting_additive (pow : K → K → K) (k : ℕ) (hk : k ≤ 21) (a c b : K)
    (ha : 0 ≤ a) (hac : a < c) (hcb : c < b) (hb : b ≤ 1) :
    |(Id.run (integrate_interval pow (fun x : K => x ^ k) a c none)).1
        + (Id.run (integrate_interval pow (fun x : K => x ^ k) c b none)).1
        - (Id.run (integrate_interval pow (fun x : K => x ^ k) a b none)).1| < 1e-9 := by
  rw [interval_id_none, interval_id_none, interval_id_none]
  exact interval_splitting_defect k hk a c b ha hac hcb hb

/-- Witness of C11 at the specification's example: `f(x) = x^4`, `a = 0`,
`c = 1/2`, `b = 1`. -/
theorem interval_splitting_additive_witness :
    (4 ≤ 21 ∧ (0 : ℚ) ≤ 0 ∧ (0 : ℚ) < 1 / 2 ∧ (1 / 2 : ℚ) < 1 ∧ (1 : ℚ) ≤ 1)
    ∧ |(Id.run (integrate_interval (fun _ _ => (0 : ℚ)) (fun x : ℚ => x ^ 4) 0 (1 / 2) none)).1
        + (Id.run (integrate_interval (fun _ _ => (0 : ℚ)) (fun x : ℚ => x ^ 4) (1 / 2) 1
            none)).1
        - (Id.run (integrate_interval (fun _ _ => (0 : ℚ)) (fun x : ℚ => x ^ 4) 0 1 none)).1|
      < 1e-9 :=
  ⟨⟨by decide, le_refl 0, by norm_num, by norm_num, le_refl 1⟩,
    interval_splitting_additive (fun _ _ => (0 : ℚ)) 4 (by decide) 0 (1 / 2) 1 (le_refl 0)
      (by norm_num) (by norm_num) (le_refl 1)⟩

theorem error_indicator_formula (pow : K → K → K) (f : K → K) (a b : K) :
    error_indicator pow f a b
      = pow (200 * |coarse_estimate f a b - kronrod_estimate f a b|) 1.5 := by
  simp only [error_indicator, kronrod_estimate, coarse_estimate, integrate_interval, Id.run,
    bind, pure, Option.getD]
  ring_nf

theorem coarse_estimate_cast (F : K → K) (f : ℚ → ℚ)
    (hF : ∀ q : ℚ, F (q : K) = ((f q : ℚ) : K)) (a b : ℚ) :
    coarse_estimate F (a : K) (b : K) = ((coarse_estimate f a b : ℚ) : K) := by
  simp only [coarse_estimate]
  push_cast
  simp only [← hF]
  push_cast
  rfl

theorem low_degree_discrepancy_rat : ∀ k ∈ List.range 14,
    |coarse_estimate (fun x : ℚ => x ^ k) 0 1 - kronrod_estimate (fun x : ℚ => x ^ k) 0 1|
      < 1e-12 := by
  decide!

/-- C12.  For every monomial `f(x) = x^k` with `0 <= k <= 13`, the value that
`integrate_interval(f, 0, 1, &err)` writes to `err`, computed with the real
power function, is below `1e-8`. -/
theorem low_degree_error_indicator (k : ℕ) (hk : k ≤ 13) (e0 : ℝ) :
    ∃ v : ℝ, (Id.run (integrate_interval (fun x y : ℝ => x ^ y) (fun x : ℝ => x ^ k) 0 1
        (some e0))).2 = some v ∧ v < 1e-8 := by
  refine ⟨_, congrArg Prod.snd (interval_id_some _ _ _ _ _), ?_⟩
  rw [error_indicator_formula]
  have hq := low_degree_discrepancy_rat k (List.mem_range.mpr (by omega))
  have hc := coarse_estimate_cast (fun x : ℝ => x ^ k) (fun x : ℚ => x ^ k)
    (fun q => by push_cast; rfl) 0 1
  have hk2 := kronrod_estimate_cast (fun x : ℝ => x ^ k) (fun x : ℚ => x ^ k)
    (fun q => by push_cast; rfl) 0 1
  rw [Rat.cast_zero, Rat.cast_one] at hc hk2
  have hR := (Rat.cast_lt (K := ℝ)).mpr hq
  rw [Rat.cast_abs] at hR
  push_cast at hR
  rw [← hc, ← hk2] at hR
  have hx0 : (0 : ℝ) ≤ 200 * |coarse_estimate (fun x : ℝ => x ^ k) 0 1
      - kronrod_estimate (fun x : ℝ => x ^ k) 0 1| := by positivity
  have hx1 : 200 * |coarse_estimate (fun x : ℝ => x ^ k) 0 1
      - kronrod_estimate (fun x : ℝ => x ^ k) 0 1| < 1e-9 := by
    norm_num at hR ⊢
    linarith
  have hle := Real.rpow_le_rpow_of_exponent_ge' hx0 (by norm_num at hx1 ⊢; linarith)
    (by norm_num : (0 : ℝ) ≤ 1) (by norm_num : (1 : ℝ) ≤ 1.5)
  rw [Real.rpow_one] at hle
  show (200 * |coarse_estimate (fun x : ℝ => x ^ k) 0 1
      - kronrod_estimate (fun x : ℝ => x ^ k) 0 1|) ^ (1.5 : ℝ) < 1e-8
  norm_num at hx1 hle ⊢
  linarith

/-- Witness of C12 at the degree of the specification's example, `k = 4`. -/
theorem low_degree_error_indicator_witness :
    4 ≤ 13 ∧ ∃ v : ℝ, (Id.run (integrate_interval (fun x y : ℝ => x ^ y)
        (fun x : ℝ => x ^ 4) 0 1 (some 0))).2 = some v ∧ v < 1e-8 :=
  ⟨by decide, low_degree_error_indicator 4 (by decide) 0⟩

theorem exp_neg_taylor_cast (y : ℚ) (n : ℕ) :
    ((exp_neg_taylor y n : ℚ) : ℝ)
      = ∑ i in Finset.range n, (-(y : ℝ)) ^ i / (i.factorial : ℝ) := by
  induction n with
  | zero => simp [exp_neg_taylor]
  | succ n ih =>
    rw [Finset.sum_range_succ, ← ih]
    simp only [exp_neg_taylor]
    push_cast
    rfl

theorem exp_neg_series_enclosure (y : ℚ) (h0 : 0 ≤ y) (h1 : y ≤ 1) :
    ((exp_neg_taylor y 14 - exp_neg_remainder y 14 : ℚ) : ℝ) ≤ Real.exp (-(y : ℝ))
      ∧ Real.exp (-(y : ℝ)) ≤ ((exp_neg_taylor y 14 + exp_neg_remainder y 14 : ℚ) : ℝ) := by
  have hy0 : (0 : ℝ) ≤ (y : ℝ) := by exact_mod_cast h0
  have hy1 : (y : ℝ) ≤ 1 := by exact_mod_cast h1
  have habs : |(-(y : ℝ))| = (y : ℝ) := by rw [abs_neg, abs_of_nonneg hy0]
  have hb := Real.exp_bound (x := -(y : ℝ)) (by rw [habs]; exact hy1) (n := 14) (by norm_num)
  rw [habs, ← exp_neg_taylor_cast, abs_le] at hb
  have hr : ((exp_neg_remainder y 14 : ℚ) : ℝ)
      = (y : ℝ) ^ 14 * (((Nat.succ 14 : ℕ) : ℝ) / (((Nat.factorial 14 : ℕ) : ℝ) * ((14 : ℕ) : ℝ))) := by
    simp only [exp_neg_remainder]
    push_cast
    rfl
  rw [Rat.cast_sub, Rat.cast_add, hr]
  constructor <;> linarith [hb.1, hb.2]

theorem exp_neg_power_enclosure (r : ℚ) (N : ℕ)
    (h0 : 0 ≤ r / ((N + 1 : ℕ) : ℚ)) (h1 : r / ((N + 1 : ℕ) : ℚ) ≤ 1) :
    Real.exp (-(r : ℝ))
        ≤ (((exp_neg_taylor (r / ((N + 1 : ℕ) : ℚ)) 14
            + exp_neg_remainder (r / ((N + 1 : ℕ) : ℚ)) 14) ^ (N + 1) : ℚ) : ℝ)
    ∧ (0 ≤ exp_neg_taylor (r / ((N + 1 : ℕ) : ℚ)) 14
            - exp_neg_remainder (r / ((N + 1 : ℕ) : ℚ)) 14 →
        (((exp_neg_taylor (r / ((N + 1 : ℕ) : ℚ)) 14
            - exp_neg_remainder (r / ((N + 1 : ℕ) : ℚ)) 14) ^ (N + 1) : ℚ) : ℝ)
          ≤ Real.exp (-(r : ℝ))) := by
  obtain ⟨hl, hu⟩ := exp_neg_series_enclosure _ h0 h1
  have hN : (((N + 1 : ℕ) : ℚ)) ≠ 0 := Nat.cast_ne_zero.mpr (Nat.succ_ne_zero N)
  have hr : r = ((N + 1 : ℕ) : ℚ) * (r / ((N + 1 : ℕ) : ℚ)) := by
    field_simp
  have hexp : Real.exp (-(r : ℝ))
      = Real.exp (-((r / ((N + 1 : ℕ) : ℚ) : ℚ) : ℝ)) ^ (N + 1) := by
    rw [← Real.exp_nat_mul]
    congr 1
    conv_lhs => rw [hr]
    push_cast
    ring
  rw [hexp, Rat.cast_pow, Rat.cast_pow]
  refine ⟨pow_le_pow_left₀ (Real.exp_pos _).le hu _, fun hpos => ?_⟩
  have hposR : (0 : ℝ) ≤ ((exp_neg_taylor (r / ((N + 1 : ℕ) : ℚ)) 14
      - exp_neg_remainder (r / ((N + 1 : ℕ) : ℚ)) 14 : ℚ) : ℝ) := by
    exact_mod_cast hpos
  exact pow_le_pow_left₀ hposR hl _

theorem exp_neg_upper_spec (q : ℚ) (hq : 0 ≤ q) :
    Real.exp (-(q : ℝ)) ≤ ((exp_neg_upper q : ℚ) : ℝ) := by
  simp only [exp_neg_upper]
  split_ifs with h
  · have hle : -(q : ℝ) ≤ -((min q 40 : ℚ) : ℝ) := by
      have : ((min q 40 : ℚ) : ℝ) ≤ (q : ℝ) := by exact_mod_cast min_le_left q 40
      linarith
    exact (Real.exp_le_exp.mpr hle).trans (exp_neg_power_enclosure _ _ h.1 h.2).1
  · rw [Rat.cast_one, Real.exp_le_one_iff]
    have : (0 : ℝ) ≤ (q : ℝ) := by exact_mod_cast hq
    linarith

theorem exp_neg_lower_spec (q : ℚ) :
    ((exp_neg_lower q : ℚ) : ℝ) ≤ Real.exp (-(q : ℝ)) := by
  simp only [exp_neg_lower]
  split_ifs with h
  · exact (exp_neg_power_enclosure _ _ h.2.1 h.2.2.1).2 h.2.2.2
  · rw [Rat.cast_zero]
    exact (Real.exp_pos _).le


theorem kronrod_estimate_mono (F G : K → K) (a b : K) (hab : a ≤ b)
    (h : ∀ t ∈ kronrod_nodes a b, F t ≤ G t) :
    kronrod_estimate F a b ≤ kronrod_estimate G a b := by
  have hbma : (0 : K) ≤ (b - a) / 2 := by linarith
  simp only [kronrod_nodes, List.forall_mem_cons, List.not_mem_nil, false_implies,
    implies_true, and_true] at h
  obtain ⟨h1, h2, h3, h4, h5, h6, h7, h8, h9, h10, h11, h12, h13, h14, h15⟩ := h
  simp only [kronrod_estimate, integrate_interval, Id.run, bind, pure]
  refine mul_le_mul_of_nonneg_right ?_ hbma
  gcongr

theorem semi_inf_mono (pow : K → K → K) (F G : K → K) (a : K) (n : ℤ) (tmp : K)
    (h : ∀ x : K, a < x → F x ≤ G x) :
    (Id.run (integrate_semi_inf pow F a n none tmp)).1
      ≤ (Id.run (integrate_semi_inf pow G a n none tmp)).1 := by
  rw [semi_inf_id_none, semi_inf_id_none]
  refine List.sum_le_sum (fun i hi => ?_)
  have hi2 : i < n.toNat := List.mem_range.mp hi
  obtain ⟨h0, hlt, h1⟩ := subinterval_bounds (K := K) n i hi2
  refine kronrod_estimate_mono _ _ _ _ hlt.le (fun t ht => ?_)
  obtain ⟨h2, h3⟩ := interval_points_interior _ _ none hlt t ht
  have ht0 : 0 < t := lt_of_le_of_lt h0 h2
  have ht1 : t < 1 := lt_of_lt_of_le h3 h1
  have hx : a < a + (1 - t) / t := by
    have : 0 < (1 - t) / t := div_pos (by linarith) ht0
    linarith
  show F (a + (1 - t) / t) / (t * t) ≤ G (a + (1 - t) / t) / (t * t)
  exact div_le_div_of_nonneg_right (h _ hx) (mul_pos ht0 ht0).le

theorem semi_inf_rat_bounds (pow : ℝ → ℝ → ℝ) (F : ℝ → ℝ) (lo hi : ℚ → ℚ) (a : ℚ) (n : ℤ)
    (tmp : ℝ) (h : ∀ q : ℚ, a < q → ((lo q : ℚ) : ℝ) ≤ F q ∧ F q ≤ ((hi q : ℚ) : ℝ)) :
    (((Id.run (integrate_semi_inf (fun _ _ => (0 : ℚ)) lo a n none 0)).1 : ℚ) : ℝ)
        ≤ (Id.run (integrate_semi_inf pow F (a : ℝ) n none tmp)).1
    ∧ (Id.run (integrate_semi_inf pow F (a : ℝ) n none tmp)).1
        ≤ (((Id.run (integrate_semi_inf (fun _ _ => (0 : ℚ)) hi a n none 0)).1 : ℚ) : ℝ) := by
  classical
  have key : ∀ g : ℚ → ℚ, ∃ G : ℝ → ℝ, (∀ q : ℚ, G (q : ℝ) = ((g q : ℚ) : ℝ))
      ∧ ∀ x : ℝ, (¬ ∃ q : ℚ, (q : ℝ) = x) → G x = F x := by
    intro g
    refine ⟨fun x => if hx : ∃ q : ℚ, (q : ℝ) = x then ((g hx.choose : ℚ) : ℝ) else F x, ?_, ?_⟩
    · intro q
      have hex : ∃ r : ℚ, (r : ℝ) = (q : ℝ) := ⟨q, rfl⟩
      simp only [hex, dif_pos]
      have := hex.choose_spec
      rw [Rat.cast_injective this]
    · intro x hx
      simp only [hx, dif_neg, not_false_eq_true]
  obtain ⟨Glo, hlo1, hlo2⟩ := key lo
  obtain ⟨Ghi, hhi1, hhi2⟩ := key hi
  constructor
  · rw [← semi_inf_cast pow (fun _ _ => (0 : ℚ)) Glo lo hlo1 a n tmp 0]
    refine semi_inf_mono pow Glo F (a : ℝ) n tmp (fun x hx => ?_)
    by_cases hq : ∃ q : ℚ, (q : ℝ) = x
    · obtain ⟨q, rfl⟩ := hq
      rw [hlo1]
      exact (h q (by exact_mod_cast hx)).1
    · rw [hlo2 x hq]
  · rw [← semi_inf_cast pow (fun _ _ => (0 : ℚ)) Ghi hi hhi1 a n tmp 0]
    refine semi_inf_mono pow F Ghi (a : ℝ) n tmp (fun x hx => ?_)
    by_cases hq : ∃ q : ℚ, (q : ℝ) = x
    · obtain ⟨q, rfl⟩ := hq
      rw [hhi1]
      exact (h q (by exact_mod_cast hx)).2
    · rw [hhi2 x hq]

theorem exp_estimate_rat_bounds :
    1 - 1e-6 < (Id.run (integrate_semi_inf (fun _ _ => (0 : ℚ)) exp_neg_lower 0 5 none 0)).1
    ∧ (Id.run (integrate_semi_inf (fun _ _ => (0 : ℚ)) exp_neg_upper 0 5 none 0)).1
        < 1 + 1e-6 := by
  decide!

/-- C13.  Known semi-infinite integral: with the default arguments (`a = 0`, 5
subdivisions, no error slot) the value of `integrate_semi_inf(x -> exp(-x))`
is within `1e-6` of `1`, with the real exponential. -/
theorem exponential_integrand_within_tolerance (pow : ℝ → ℝ → ℝ) (tmp : ℝ) :
    |(Id.run (integrate_semi_inf_defaults pow (fun x : ℝ => Real.exp (-x)) tmp)).1 - 1|
      < 1e-6 := by
  obtain ⟨hl, hu⟩ := semi_inf_rat_bounds pow (fun x : ℝ => Real.exp (-x)) exp_neg_lower
    exp_neg_upper 0 5 tmp
    (fun q hq => ⟨exp_neg_lower_spec q, exp_neg_upper_spec q hq.le⟩)
  obtain ⟨ql, qu⟩ := exp_estimate_rat_bounds
  have ql2 := (Rat.cast_lt (K := ℝ)).mpr ql
  have qu2 := (Rat.cast_lt (K := ℝ)).mpr qu
  push_cast at ql2 qu2 hl hu
  show |(Id.run (integrate_semi_inf pow (fun x : ℝ => Real.exp (-x)) 0 5 none tmp)).1 - 1| < 1e-6
  rw [abs_lt]
  constructor <;> norm_num at ql2 qu2 ⊢ <;> linarith

theorem kronrod_estimate_swap (f : K → K) (a b : K) :
    kronrod_estimate f b a = -kronrod_estimate f a b := by
  simp only [kronrod_estimate, integrate_interval, Id.run, bind, pure]
  ring_nf

theorem coarse_estimate_swap (f : K → K) (a b : K) :
    coarse_estimate f b a = -coarse_estimate f a b := by
  simp only [coarse_estimate]
  ring_nf

theorem kronrod_estimate_linear (f g : K → K) (α β a b : K) :
    kronrod_estimate (fun x => α * f x + β * g x) a b
      = α * kronrod_estimate f a b + β * kronrod_estimate g a b := by
  simp only [kronrod_estimate, integrate_interval, Id.run, bind, pure]
  ring

theorem transformed_linear (f g : K → K) (α β a : K) :
    transformed (fun x => α * f x + β * g x) a
      = fun t => α * transformed f a t + β * transformed g a t := by
  funext t
  simp only [transformed, f_transform, Id.run, bind, pure]
  ring


theorem list_sum_linear (l : List ℕ) (u v : ℕ → K) (α β : K) :
    (l.map (fun i => α * u i + β * v i)).sum = α * (l.map u).sum + β * (l.map v).sum := by
  induction l with
  | nil => simp
  | cons i l ih =>
    simp only [List.map_cons, List.sum_cons, ih]
    ring

/-- C14.  Requesting the error estimate does not change the integral estimate:
for every pure integrand, `integrate_interval(f, a, b)` returns the same value
with and without an error slot, and so does `integrate_semi_inf(f, a, n)`. -/
theorem error_slot_leaves_estimate (pow : K → K → K) (f : K → K) (a b e0 tmp : K)
    (n : ℤ) :
    (Id.run (integrate_interval pow f a b (some e0))).1
        = (Id.run (integrate_interval pow f a b none)).1
    ∧ (Id.run (integrate_semi_inf pow f a n (some e0) tmp)).1
        = (Id.run (integrate_semi_inf pow f a n none tmp)).1 := by
  refine ⟨rfl, ?_⟩
  rw [semi_inf_id_some, semi_inf_id_none]

/-- C16.  For every `subdivisions <= 0`, `integrate_semi_inf` returns `0`,
leaves a supplied error slot as it was, and does not call the integrand. -/
theorem nonpositive_subdivisions (pow : K → K → K) (f : K → K) (a : K) (n : ℤ)
    (slot : Option K) (tmp : K) (hn : n ≤ 0) :
    Id.run (integrate_semi_inf pow f a n slot tmp) = (0, slot)
    ∧ (integrate_semi_inf pow (logged f) a n slot tmp).run [] = ((0, slot), []) := by
  have h0 : n.toNat = 0 := Int.toNat_eq_zero.mpr hn
  constructor
  · simp only [integrate_semi_inf, h0, List.range_zero, List.foldlM_nil]
    rfl
  · simp only [integrate_semi_inf, h0, List.range_zero, List.foldlM_nil]
    rfl

/-- Witness of C16 at `subdivisions = 0` with a slot holding `7`. -/
theorem nonpositive_subdivisions_witness :
    (0 : ℤ) ≤ 0
    ∧ Id.run (integrate_semi_inf (fun _ _ => (0 : ℚ)) (fun x : ℚ => x) 0 0 (some 7) 0)
        = (0, some 7)
    ∧ (integrate_semi_inf (fun _ _ => (0 : ℚ)) (logged (fun x : ℚ => x)) 0 0 (some 7) 0).run []
        = ((0, some 7), []) :=
  ⟨le_refl 0, nonpositive_subdivisions (fun _ _ => (0 : ℚ)) (fun x : ℚ => x) 0 0 (some 7) 0
    (le_refl 0)⟩

/-- C17.  Swapping the bounds negates the estimate and keeps the error
indicator; for `a = b` the estimate is `0` and, with the real power function,
the indicator is `0`. -/
theorem swapped_bounds (pow : ℝ → ℝ → ℝ) (f : ℝ → ℝ) (a b e0 : ℝ) :
    (Id.run (integrate_interval pow f b a none)).1
        = -(Id.run (integrate_interval pow f a b none)).1
    ∧ (Id.run (integrate_interval pow f b a (some e0))).2
        = (Id.run (integrate_interval pow f a b (some e0))).2
    ∧ Id.run (integrate_interval (fun x y : ℝ => x ^ y) f a a (some e0)) = (0, some 0) := by
  refine ⟨?_, ?_, ?_⟩
  · rw [interval_id_none, interval_id_none]
    exact kronrod_estimate_swap f a b
  · rw [interval_id_some, interval_id_some, error_indicator_formula, error_indicator_formula,
      kronrod_estimate_swap f a b, coarse_estimate_swap f a b, neg_sub_neg, abs_sub_comm]
  · have hk : kronrod_estimate f a a = 0 := by
      have h := kronrod_estimate_swap f a a
      linarith
    have hc : coarse_estimate f a a = 0 := by
      have h := coarse_estimate_swap f a a
      linarith
    rw [interval_id_some, error_indicator_formula, hk, hc]
    have h0 : (0 : ℝ) ^ (1.5 : ℝ) = 0 := Real.zero_rpow (by norm_num)
    simp [h0]

/-- C18.  The estimate is linear in the integrand: the value of
`integrate_interval` and the value of `integrate_semi_inf` (every lower bound,
every subdivision count) at `x -> alpha * f(x) + beta * g(x)` are `alpha` times
the value at `f` plus `beta` times the value at `g`. -/
theorem estimate_linear (pow : K → K → K) (f g : K → K) (α β a b tmp : K) (n : ℤ) :
    (Id.run (integrate_interval pow (fun x => α * f x + β * g x) a b none)).1
        = α * (Id.run (integrate_interval pow f a b none)).1
          + β * (Id.run (integrate_interval pow g a b none)).1
    ∧ (Id.run (integrate_semi_inf pow (fun x => α * f x + β * g x) a n none tmp)).1
        = α * (Id.run (integrate_semi_inf pow f a n none tmp)).1
          + β * (Id.run (integrate_semi_inf pow g a n none tmp)).1 := by
  constructor
  · rw [interval_id_none, interval_id_none, interval_id_none]
    exact kronrod_estimate_linear f g α β a b
  · rw [semi_inf_id_none, semi_inf_id_none, semi_inf_id_none]
    simp only [transformed_linear, kronrod_estimate_linear]
    exact list_sum_linear _ _ _ α β

end EasyNumeric
